import Mathlib

/-!
# Partitioned Columnar Transform Pipeline — verification development

A shallow embedding of the pipeline described by the repository's design
document (partition source, typed reader with sentinel substitution,
lazy graph builder, materializer) together with the row-filter used in
the notebooks (`aqc_df[aqc_df["HR00Val"] > 0]`).  The pipeline
components are not implemented inside the repository (the notebooks
delegate them to external libraries), so they are modelled from the
specification text; the filter and the schemas are taken from the
notebook code.
-/

namespace Pipeline

/-- Semantic column type (spec §3, Schema): integer, floating point,
text, timestamp. -/
inductive SemType where
  | int
  | float
  | text
  | timestamp
deriving DecidableEq, Repr

/-- A typed cell value.  Missing entries are the explicit absent
marker, never conflated with a valid zero or empty string (spec §3,
Column). -/
inductive Value where
  | absent
  | intv (n : Int)
  | floatv (q : Rat)
  | textv (s : String)
  | datev (s : String)
deriving DecidableEq, Repr

/-- One column declaration of a Schema: name, semantic type, optional
missing-value sentinel (spec §3 and §6: `{column_name: (type,
sentinel_or_none)}`). -/
structure ColSpec where
  name : String
  ty : SemType
  sentinel : Option String
deriving DecidableEq, Repr

/-- A Schema is an ordered mapping from column name to semantic type
plus optional sentinel (spec §3). -/
abbrev Schema := List ColSpec

/-- Error taxonomy (spec §7). -/
inductive PipeError where
  | notFound
  | typeMismatch (col : String) (raw : String)
  | cyclicDependency (col : String)
  | unresolvedColumn (col : String)
  | collision (col : String)
  | missingColumn (col : String)
  | partitionFailure (idx : Nat)
deriving DecidableEq, Repr

/-- A raw partition: for each raw column name, the textual cell values
in row order.  Models one independently-readable file. -/
structure RawPartition where
  cols : List (String × List String)
deriving Repr

/-- An in-memory table, column-major: column name paired with its
value sequence. -/
abbrev Table := List (String × List Value)

/-- Parse an unsigned decimal digit string. -/
def digitsToNat? (l : List Char) : Option Nat :=
  if l = [] then none
  else l.foldlM (fun acc c => if c.isDigit then some (acc * 10 + (c.toNat - 48)) else none) 0

/-- Parse a decimal integer (optional leading minus). -/
def parseInt? (s : String) : Option Int :=
  match s.data with
  | '-' :: rest => (digitsToNat? rest).map (fun n => -(n : Int))
  | l => (digitsToNat? l).map (fun n => (n : Int))

/-- Parse an unsigned decimal fraction `digits` or `digits.digits` as
a rational. -/
def parseUFrac? (l : List Char) : Option Rat :=
  match l.splitOn '.' with
  | [ip] => (digitsToNat? ip).map (fun n => (n : Rat))
  | [ip, fp] =>
    match digitsToNat? ip, digitsToNat? fp with
    | some n, some f => some ((n : Rat) + (f : Rat) / ((10 : Rat) ^ fp.length))
    | _, _ => none
  | _ => none

/-- Parse a decimal floating-point literal as an exact rational. -/
def parseFloat? (s : String) : Option Rat :=
  match s.data with
  | '-' :: rest => (parseUFrac? rest).map Neg.neg
  | l => parseUFrac? l

/-- Check a `YYYY-MM-DD` timestamp shape. -/
def isDateLit (s : String) : Bool :=
  match s.splitOn "-" with
  | [y, m, d] =>
    y.length = 4 && m.length = 2 && d.length = 2 &&
    (y.data ++ m.data ++ d.data).all Char.isDigit
  | _ => false

/-- Modelled from the spec: typed coercion of one raw textual value to
the declared semantic type (spec §4.2, Typed Reader).  Returns `none`
when the value cannot be coerced.  No result is ever the absent
marker: absence only arises from sentinel substitution. -/
def parseTyped (ty : SemType) (raw : String) : Option Value :=
  match ty with
  | .int => (parseInt? raw).map .intv
  | .float => (parseFloat? raw).map .floatv
  | .text => some (.textv raw)
  | .timestamp => if isDateLit raw then some (.datev raw) else none

/-- Modelled from the spec: read one cell.  The sentinel comparison
happens on the raw textual form, before any typed parsing is
attempted (spec §4.2); a sentinel cell becomes the absent marker, any
other cell must coerce to the declared type or the read fails with
`typeMismatch`. -/
def readCell (c : ColSpec) (raw : String) : Except PipeError Value :=
  if c.sentinel = some raw then .ok .absent
  else
    match parseTyped c.ty raw with
    | some v => .ok v
    | none => .error (.typeMismatch c.name raw)

/-- Modelled from the spec: read one declared column of a partition,
cell by cell, failing on the first non-coercible value (spec §4.2). -/
def readColumn (c : ColSpec) : List String → Except PipeError (List Value)
  | [] => .ok []
  | raw :: rest =>
    match readCell c raw with
    | .error e => .error e
    | .ok v =>
      match readColumn c rest with
      | .error e => .error e
      | .ok vs => .ok (v :: vs)

/-- The raw cells of one declared column, or a `missingColumn` error:
a declared column absent from a partition is an error, not a silent
null-fill (spec §3, Schema invariant). -/
def lookupRaws (p : RawPartition) (c : ColSpec) : Except PipeError (List String) :=
  match p.cols.lookup c.name with
  | none => .error (.missingColumn c.name)
  | some raws => .ok raws

/-- Modelled from the spec: the Typed Reader.  Given one partition and
a Schema it produces a table restricted to the Schema's declared
columns (spec §4.2).  Errors surface here, at read time. -/
def readPartition : Schema → RawPartition → Except PipeError Table
  | [], _ => .ok []
  | c :: rest, p =>
    (lookupRaws p c).bind fun raws =>
      (readColumn c raws).bind fun vs =>
        (readPartition rest p).map fun t => (c.name, vs) :: t

/-- Modelled from the spec: a Column Transform Node (spec §3, §4.3):
identified by its output column name(s), its input column name(s) and
a pure mapping function from input columns to output columns. -/
structure TNode where
  outputs : List String
  inputs : List String
  fn : List (List Value) → List (List Value)

/-- A built Pipeline Graph: a Schema root plus transform nodes in
declaration order (spec §3). -/
structure Graph where
  schema : Schema
  nodes : List TNode

/-- The declared column names of a Schema. -/
def schemaNames (S : Schema) : List String :=
  S.map (fun c => c.name)

/-- All output column names declared by a node list, in declaration
order. -/
def allOutputs (nodes : List TNode) : List String :=
  (nodes.map (fun n => n.outputs)).flatten

/-- First name that occurs twice in a list, if any. -/
def firstDup : List String → Option String
  | [] => none
  | x :: xs => if x ∈ xs then some x else firstDup xs

/-- Direct column dependencies: the inputs of every node that outputs
`o`. -/
def directDeps (nodes : List TNode) (o : String) : List String :=
  ((nodes.filter (fun n => o ∈ n.outputs)).map (fun n => n.inputs)).flatten

/-- One step of the column dependency relation: column `a` directly
depends on column `b`. -/
def Edge (nodes : List TNode) (a b : String) : Prop :=
  ∃ n ∈ nodes, a ∈ n.outputs ∧ b ∈ n.inputs

/-- Fuel-bounded reachability in the column dependency graph. -/
def reachable (nodes : List TNode) : Nat → String → String → Bool
  | 0, _, _ => false
  | fuel + 1, a, b =>
    (directDeps nodes a).any (fun c => c = b || reachable nodes fuel c b)

/-- First declared output column that transitively depends on itself,
if any. -/
def cyclicWitness (nodes : List TNode) : Option String :=
  (allOutputs nodes).find? (fun o => reachable nodes (allOutputs nodes).length o o)

/-- Modelled from the spec: dependency-name resolution in declaration
order — an input must already exist in the Schema or among the
outputs of nodes defined so far; forward references fail (spec §4.3).
Returns the first unresolved input name, if any. -/
def firstUnresolved (avail : List String) : List TNode → Option String
  | [] => none
  | n :: rest =>
    match n.inputs.find? (fun i => !(decide (i ∈ avail))) with
    | some i => some i
    | none => firstUnresolved (avail ++ n.outputs) rest

/-- Modelled from the spec: the Lazy Graph Builder (spec §4.3).
Building performs only name checks and cycle detection — it takes no
partition data at all.  Two nodes may not declare the same output
name (`collision`); a column transitively depending on itself is a
`cyclicDependency`; an input resolvable neither from the Schema nor
from nodes declared so far is an `unresolvedColumn`. -/
def buildGraph (S : Schema) (nodes : List TNode) : Except PipeError Graph :=
  match firstDup (allOutputs nodes) with
  | some d => .error (.collision d)
  | none =>
    match cyclicWitness nodes with
    | some c => .error (.cyclicDependency c)
    | none =>
      match firstUnresolved (schemaNames S) nodes with
      | some i => .error (.unresolvedColumn i)
      | none => .ok ⟨S, nodes⟩

/-- Modelled from the spec: a rename-style node attaching a suffix to
disambiguate two nodes producing a column of the same semantic source
(spec §4.3; `nvt.ops.Rename(postfix=...)` in the notebooks). -/
def renameNode (base suffix : String) : TNode :=
  ⟨[base ++ suffix], [base], fun cols => cols⟩

/-- Modelled from the spec: evaluate one transform node over a
partition's column environment, appending its output columns; inputs
are never mutated (spec §3, Transform Node). -/
def evalNode (env : Table) (n : TNode) : Table :=
  let ins := n.inputs.map (fun i => (env.lookup i).getD [])
  env ++ n.outputs.zip (n.fn ins)

/-- Modelled from the spec: evaluate all nodes of a graph over one
partition's table, in declaration (topological) order. -/
def evalGraph (g : Graph) (t : Table) : Table :=
  g.nodes.foldl evalNode t

/-- Modelled from the spec: the per-partition phase of the
Materializer — read every partition under the Schema and evaluate the
graph on it, in partition order, failing fast on the first partition
error (spec §4.4). -/
def materializeParts (g : Graph) : List RawPartition → Except PipeError (List Table)
  | [] => .ok []
  | p :: ps =>
    match readPartition g.schema p with
    | .error e => .error e
    | .ok t =>
      match materializeParts g ps with
      | .error e => .error e
      | .ok ts => .ok (evalGraph g t :: ts)

/-- Column-wise concatenation of two tables sharing column order. -/
def appendTables (t1 t2 : Table) : Table :=
  List.zipWith (fun c1 c2 => (c1.1, c1.2 ++ c2.2)) t1 t2

/-- Column-wise concatenation of a list of tables, in order. -/
def joinTables : List Table → Table
  | [] => []
  | [t] => t
  | t :: ts => appendTables t (joinTables ts)

/-- The row count of a table (length of its first column). -/
def rowCount (t : Table) : Nat :=
  match t with
  | [] => 0
  | c :: _ => c.2.length

/-- A table is rectangular when every column has the common row count
(spec §3, Column: fixed length equal to the owning partition's row
count). -/
def Rectangular (t : Table) : Prop :=
  ∀ c ∈ t, c.2.length = rowCount t

/-- Modelled from the spec: contiguous row-range chunk sizes for `n`
output files over `total` rows (spec §4.4: rows are distributed
across output files by contiguous row-range splitting, not by a
key). -/
def splitSizes (n total : Nat) : List Nat :=
  List.replicate (total % n) (total / n + 1) ++ List.replicate (n - total % n) (total / n)

/-- Start offsets and lengths of each contiguous row range. -/
def fileStarts : List Nat → Nat → List (Nat × Nat)
  | [], _ => []
  | k :: ks, s => (s, k) :: fileStarts ks (s + k)

/-- The rows `[start, start+len)` of every column of a table. -/
def fileChunk (t : Table) (start len : Nat) : Table :=
  t.map (fun c => (c.1, (c.2.drop start).take len))

/-- Modelled from the spec: write a materialized table to `n` output
files by contiguous row-range splitting (spec §4.4). -/
def writeFiles (t : Table) (n : Nat) : List Table :=
  (fileStarts (splitSizes n (rowCount t)) 0).map (fun p => fileChunk t p.1 p.2)

/-- Modelled from the spec: single-output materialization —
concatenation, in partition order, of all per-partition evaluated
tables (spec §3, Materialized Table). -/
def materializeSingle (g : Graph) (parts : List RawPartition) : Except PipeError Table :=
  (materializeParts g parts).map joinTables

/-- Modelled from the spec: materialization to a caller-chosen number
of output files (spec §4.4: the number of output files is an explicit
parameter; rows are distributed by contiguous row-range splitting). -/
def materializeToFiles (g : Graph) (parts : List RawPartition) (n : Nat) :
    Except PipeError (List Table) :=
  (materializeSingle g parts).map (fun t => writeFiles t n)

/-- Modelled from the spec: the whole pipeline — build the graph, then
materialize over the partitions.  Graph-construction errors are fatal
and synchronous, so a build error is returned before any partition is
read (spec §7). -/
def runPipeline (S : Schema) (nodes : List TNode) (parts : List RawPartition) :
    Except PipeError (List Table) :=
  match buildGraph S nodes with
  | .error e => .error e
  | .ok g => materializeParts g parts

/-- Shell-glob match of a pattern against a path: `*` matches any run
of characters except the path separator, `?` one such character.
Structural on a fuel bound that each recursive step stays under. -/
def globMatchAux : Nat → List Char → List Char → Bool
  | 0, _, _ => false
  | _ + 1, [], [] => true
  | fuel + 1, '*' :: ps, [] => globMatchAux fuel ps []
  | _ + 1, _ :: _, [] => false
  | _ + 1, [], _ :: _ => false
  | fuel + 1, '*' :: ps, c :: cs =>
    (!(c = '/') && globMatchAux fuel ('*' :: ps) cs) || globMatchAux fuel ps (c :: cs)
  | fuel + 1, '?' :: ps, c :: cs => !(c = '/') && globMatchAux fuel ps cs
  | fuel + 1, p :: ps, c :: cs => p = c && globMatchAux fuel ps cs

/-- Glob match on strings. -/
def globMatch (pattern path : String) : Bool :=
  globMatchAux (pattern.length + path.length + 1) pattern.data path.data

/-- Lexicographic order on paths, by character sequence. -/
instance pathLeTrans : IsTrans String (fun a b : String => a.data ≤ b.data) :=
  ⟨fun _ _ _ => le_trans⟩

instance pathLeTotal : IsTotal String (fun a b : String => a.data ≤ b.data) :=
  ⟨fun _ _ => le_total _ _⟩

instance pathLeAntisymm : IsAntisymm String (fun a b : String => a.data ≤ b.data) :=
  ⟨fun _ _ h1 h2 => String.toList_inj.mp (le_antisymm h1 h2)⟩

/-- Modelled from the spec: the Partition Source (spec §4.1).  Given a
file-path glob and the set of existing paths, produce the matching
paths in deterministic lexicographic order; fail with `notFound` when
the glob matches zero files. -/
def partitionSource (pattern : String) (files : List String) :
    Except PipeError (List String) :=
  let ms := List.insertionSort (fun a b : String => a.data ≤ b.data)
    (files.filter (fun f => globMatch pattern f))
  if ms.isEmpty then .error .notFound else .ok ms

/-- The boolean mask cell for the notebook filter
`aqc_df["HR00Val"] > 0`: a null (absent) comparison is not true, so
an absent row is dropped by the mask, exactly as a zero or negative
row is. -/
def gtZero (v : Value) : Bool :=
  match v with
  | .intv n => decide (0 < n)
  | .floatv q => decide (0 < q)
  | _ => false

/-- A row-major view: one row of typed values. -/
abbrev Row := List Value

/-- The notebook filter `aqc_df[aqc_df["HR00Val"] > 0]` over a
row-major table, masking on the column at index `idx`. -/
def filterGtZero (idx : Nat) (rows : List Row) : List Row :=
  rows.filter (fun r => gtZero (r.getD idx .absent))

/-- The string values of one table column (e.g. the `DATE` column
read as text). -/
def colStrings (t : Table) (col : String) : List String :=
  ((t.lookup col).getD []).filterMap
    (fun v => match v with | .textv s => some s | _ => none)

/-- Running minimum over an optional accumulator. -/
def optMin (s : String) (acc : Option String) : Option String :=
  match acc with
  | none => some s
  | some t => some (min s t)

/-- Folding a running minimum is insensitive to the order in which
contributions arrive. -/
instance optMinLeftComm : LeftCommutative optMin :=
  ⟨fun a₁ a₂ b => by
    cases b with
    | none => simp [optMin, min_comm]
    | some t => simp [optMin, min_left_comm]⟩

/-- The minimum of a list of strings (the notebook's
`df["DATE"].min()`), `none` on an empty list. -/
def dateMin (l : List String) : Option String :=
  l.foldr optMin none

/-- The values of column `col` over a list of per-partition
transformed tables, concatenated in the given order. -/
def partsColStrings (ts : List Table) (col : String) : List String :=
  (ts.map (fun t => colStrings t col)).flatten

/-- The scenario schema of spec §8: `{STATION: text, VALUE: int,
sentinel=-9999}`. -/
def exSchema : Schema :=
  [⟨"STATION", .text, none⟩, ⟨"VALUE", .int, some "-9999"⟩]

/-- The scenario partition of spec §8: rows `["A",5]`, `["B",-9999]`,
`["A",0]`. -/
def exPartition : RawPartition :=
  ⟨[("STATION", ["A", "B", "A"]), ("VALUE", ["5", "-9999", "0"])]⟩

/-- The table the Typed Reader returns on the §8 scenario. -/
def exTable : Table :=
  [("STATION", [.textv "A", .textv "B", .textv "A"]),
   ("VALUE", [.intv 5, .absent, .intv 0])]

end Pipeline

namespace Pipeline

theorem except_bind_ok {α β : Type} (a : α) (f : α → Except PipeError β) :
    (Except.ok a).bind f = f a := rfl

theorem except_bind_error {α β : Type} (e : PipeError) (f : α → Except PipeError β) :
    (Except.error e).bind f = .error e := rfl

theorem except_map_ok {α β : Type} (a : α) (f : α → β) :
    (Except.ok a : Except PipeError α).map f = .ok (f a) := rfl

theorem except_map_error {α β : Type} (e : PipeError) (f : α → β) :
    (Except.error e : Except PipeError α).map f = (.error e : Except PipeError β) := rfl

theorem lookupRaws_ok {p : RawPartition} {c : ColSpec} {raws : List String} :
    lookupRaws p c = .ok raws ↔ p.cols.lookup c.name = some raws := by
  unfold lookupRaws
  split
  · rename_i hl
    simp [hl]
  · rename_i raws2 hl
    simp [hl]

theorem parseTyped_ne_absent {ty : SemType} {raw : String} {v : Value}
    (h : parseTyped ty raw = some v) : v ≠ .absent := by
  cases ty <;> simp only [parseTyped] at h
  · obtain ⟨n, -, rfl⟩ := Option.map_eq_some'.mp h
    simp
  · obtain ⟨q, -, rfl⟩ := Option.map_eq_some'.mp h
    simp
  · cases h
    simp
  · split at h
    · cases h; simp
    · cases h

theorem readCell_ok_sentinel_iff {c : ColSpec} {V raw : String} {v : Value}
    (hs : c.sentinel = some V) (h : readCell c raw = .ok v) :
    raw = V ↔ v = .absent := by
  unfold readCell at h
  split at h
  · rename_i hc
    rw [hs] at hc
    cases h
    simp_all
  · rename_i hc
    rw [hs] at hc
    constructor
    · intro hr
      exact absurd (by rw [hr]) hc
    · intro hv
      split at h
      · rename_i hp
        cases h
        exact absurd hv (parseTyped_ne_absent hp)
      · cases h

theorem readCell_ok_no_sentinel {c : ColSpec} {raw : String} {v : Value}
    (hns : c.sentinel ≠ some raw) (h : readCell c raw = .ok v) :
    parseTyped c.ty raw = some v := by
  unfold readCell at h
  split at h
  · rename_i hc
    exact absurd hc hns
  · split at h
    · cases h; assumption
    · cases h

theorem readColumn_ok_get {c : ColSpec} :
    ∀ {raws : List String} {vs : List Value}, readColumn c raws = .ok vs →
      vs.length = raws.length ∧
      ∀ i, ∀ (h1 : i < raws.length) (h2 : i < vs.length),
        readCell c (raws.get ⟨i, h1⟩) = .ok (vs.get ⟨i, h2⟩) := by
  intro raws
  induction raws with
  | nil =>
    intro vs h
    simp only [readColumn] at h
    cases h
    refine ⟨rfl, ?_⟩
    intro i h1
    exact absurd h1 (by simp)
  | cons raw rest ih =>
    intro vs h
    simp only [readColumn] at h
    cases hc : readCell c raw with
    | error e => rw [hc] at h; cases h
    | ok v =>
      rw [hc] at h
      cases hr : readColumn c rest with
      | error e => rw [hr] at h; cases h
      | ok vs2 =>
        rw [hr] at h
        cases h
        obtain ⟨hlen, hget⟩ := ih hr
        refine ⟨by simp [hlen], ?_⟩
        intro i h1 h2
        cases i with
        | zero => simpa using hc
        | succ j =>
          simpa using hget j (by simpa using h1) (by simpa using h2)

theorem readPartition_ok_get :
    ∀ {S : Schema} {p : RawPartition} {t : Table}, readPartition S p = .ok t →
      t.length = S.length ∧
      ∀ i, ∀ (hi : i < S.length) (ht : i < t.length),
        ∃ raws, p.cols.lookup (S.get ⟨i, hi⟩).name = some raws ∧
          (t.get ⟨i, ht⟩).1 = (S.get ⟨i, hi⟩).name ∧
          readColumn (S.get ⟨i, hi⟩) raws = .ok (t.get ⟨i, ht⟩).2 := by
  intro S
  induction S with
  | nil =>
    intro p t h
    simp only [readPartition] at h
    cases h
    refine ⟨rfl, ?_⟩
    intro i hi
    exact absurd hi (by simp)
  | cons c rest ih =>
    intro p t h
    simp only [readPartition] at h
    cases hl : lookupRaws p c with
    | error e => rw [hl, except_bind_error] at h; cases h
    | ok raws =>
      rw [hl] at h
      simp only [except_bind_ok] at h
      cases hc : readColumn c raws with
      | error e => rw [hc, except_bind_error] at h; cases h
      | ok vs =>
        rw [hc] at h
        simp only [except_bind_ok] at h
        cases hr : readPartition rest p with
        | error e => rw [hr, except_map_error] at h; cases h
        | ok t2 =>
          rw [hr, except_map_ok] at h
          cases h
          obtain ⟨hlen, hget⟩ := ih hr
          refine ⟨by simp [hlen], ?_⟩
          intro i hi ht
          cases i with
          | zero => exact ⟨raws, lookupRaws_ok.mp hl, rfl, hc⟩
          | succ j =>
            simpa using hget j (by simpa using hi) (by simpa using ht)

/-- **C1.** For every column with a declared missing-value sentinel
`V`, after the Typed Reader reads a partition under the Schema, a
cell of that column is the absent marker exactly when its raw value
was `V`: every raw `V` becomes absent, and no non-sentinel raw is
turned absent — in particular a sentinel cell is never left as a
typed value of `V` and never becomes a valid zero. -/
theorem sentinel_substitution_complete (S : Schema) (p : RawPartition) (t : Table)
    (i : Nat) (hi : i < S.length) (V : String)
    (hread : readPartition S p = .ok t)
    (hsent : (S.get ⟨i, hi⟩).sentinel = some V) :
    ∃ (ht : i < t.length) (raws : List String),
      p.cols.lookup (S.get ⟨i, hi⟩).name = some raws ∧
      (t.get ⟨i, ht⟩).2.length = raws.length ∧
      ∀ j, ∀ (h1 : j < raws.length) (h2 : j < (t.get ⟨i, ht⟩).2.length),
        (raws.get ⟨j, h1⟩ = V ↔ (t.get ⟨i, ht⟩).2.get ⟨j, h2⟩ = .absent) := by
  obtain ⟨hlen, hget⟩ := readPartition_ok_get hread
  have ht : i < t.length := by rw [hlen]; exact hi
  obtain ⟨raws, hlook, -, hcol⟩ := hget i hi ht
  obtain ⟨hclen, hcell⟩ := readColumn_ok_get hcol
  exact ⟨ht, raws, hlook, hclen, fun j h1 h2 =>
    readCell_ok_sentinel_iff hsent (hcell j h1 h2)⟩

/-- **C1 witness.** The spec §8 scenario: schema
`{STATION: text, VALUE: int, sentinel=-9999}` over rows `["A",5]`,
`["B",-9999]`, `["A",0]` reads to a table whose `VALUE` column is
absent exactly at row 2. -/
theorem sentinel_substitution_complete_witness :
    readPartition exSchema exPartition = .ok exTable ∧
    (1 : Nat) < exSchema.length ∧
    (exSchema.get ⟨1, by decide⟩).sentinel = some "-9999" ∧
    ∃ (ht : 1 < exTable.length) (raws : List String),
      exPartition.cols.lookup (exSchema.get ⟨1, by decide⟩).name = some raws ∧
      (exTable.get ⟨1, ht⟩).2.length = raws.length ∧
      ∀ j, ∀ (h1 : j < raws.length) (h2 : j < (exTable.get ⟨1, ht⟩).2.length),
        (raws.get ⟨j, h1⟩ = "-9999" ↔ (exTable.get ⟨1, ht⟩).2.get ⟨j, h2⟩ = .absent) :=
  ⟨by rfl, by decide, by decide,
    sentinel_substitution_complete exSchema exPartition exTable 1 (by decide)
      "-9999" (by rfl) (by decide)⟩

/-- **C2.** Sentinel substitution is per-column and textual: if only
column `A` declares sentinel `V`, a raw value in a distinct column
`B` that textually equals `V` is kept as the typed coercion of `V` —
a regular, non-absent value — and is never replaced by the absent
marker. -/
theorem sentinel_not_cross_applied (S : Schema) (p : RawPartition) (t : Table)
    (iA iB : Nat) (hA : iA < S.length) (hB : iB < S.length) (V : String)
    (hread : readPartition S p = .ok t)
    (hAs : (S.get ⟨iA, hA⟩).sentinel = some V)
    (hBs : (S.get ⟨iB, hB⟩).sentinel ≠ some V)
    (j : Nat) (raws : List String)
    (hlook : p.cols.lookup (S.get ⟨iB, hB⟩).name = some raws)
    (h1 : j < raws.length) (hraw : raws.get ⟨j, h1⟩ = V) :
    ∃ (ht : iB < t.length) (h2 : j < (t.get ⟨iB, ht⟩).2.length),
      parseTyped (S.get ⟨iB, hB⟩).ty V = some ((t.get ⟨iB, ht⟩).2.get ⟨j, h2⟩) ∧
      (t.get ⟨iB, ht⟩).2.get ⟨j, h2⟩ ≠ .absent := by
  obtain ⟨hlen, hget⟩ := readPartition_ok_get hread
  have ht : iB < t.length := by rw [hlen]; exact hB
  obtain ⟨raws2, hlook2, -, hcol⟩ := hget iB hB ht
  rw [hlook] at hlook2
  cases hlook2
  obtain ⟨hclen, hcell⟩ := readColumn_ok_get hcol
  have h2 : j < (t.get ⟨iB, ht⟩).2.length := by rw [hclen]; exact h1
  have hc := hcell j h1 h2
  rw [hraw] at hc
  have hp := readCell_ok_no_sentinel hBs hc
  exact ⟨ht, h2, hp, parseTyped_ne_absent hp⟩

/-- **C2 witness.** In the §8 scenario, a raw `"-9999"` appearing in
the sentinel-free text column `STATION` survives as the text value
`"-9999"`, while the distinct column `VALUE` declares that
sentinel. -/
theorem sentinel_not_cross_applied_witness :
    readPartition exSchema ⟨[("STATION", ["-9999", "B"]), ("VALUE", ["7", "-9999"])]⟩ =
      .ok [("STATION", [.textv "-9999", .textv "B"]), ("VALUE", [.intv 7, .absent])] ∧
    ∃ (ht : 0 < ([("STATION", [Value.textv "-9999", Value.textv "B"]),
        ("VALUE", [Value.intv 7, Value.absent])] : Table).length)
      (h2 : 0 < (([("STATION", [Value.textv "-9999", Value.textv "B"]),
        ("VALUE", [Value.intv 7, Value.absent])] : Table).get ⟨0, ht⟩).2.length),
      parseTyped .text "-9999" =
        some ((([("STATION", [Value.textv "-9999", Value.textv "B"]),
          ("VALUE", [Value.intv 7, Value.absent])] : Table).get ⟨0, ht⟩).2.get ⟨0, h2⟩) ∧
      (([("STATION", [Value.textv "-9999", Value.textv "B"]),
        ("VALUE", [Value.intv 7, Value.absent])] : Table).get ⟨0, ht⟩).2.get ⟨0, h2⟩ ≠
        .absent :=
  ⟨by rfl,
    sentinel_not_cross_applied exSchema
      ⟨[("STATION", ["-9999", "B"]), ("VALUE", ["7", "-9999"])]⟩
      [("STATION", [.textv "-9999", .textv "B"]), ("VALUE", [.intv 7, .absent])]
      1 0 (by decide) (by decide) "-9999" (by rfl) (by decide) (by decide)
      0 ["-9999", "B"] (by rfl) (by decide) (by decide)⟩

theorem readCell_error_shape {c : ColSpec} {raw : String} {e : PipeError}
    (h : readCell c raw = .error e) : e = .typeMismatch c.name raw := by
  unfold readCell at h
  split at h
  · cases h
  · split at h
    · cases h
    · cases h; rfl

theorem readColumn_error_shape {c : ColSpec} :
    ∀ {raws : List String} {e : PipeError}, readColumn c raws = .error e →
      ∃ raw, e = .typeMismatch c.name raw := by
  intro raws
  induction raws with
  | nil => intro e h; simp only [readColumn] at h; cases h
  | cons raw rest ih =>
    intro e h
    simp only [readColumn] at h
    split at h
    · rename_i e2 hc
      cases h
      exact ⟨raw, readCell_error_shape hc⟩
    · split at h
      · cases h
        rename_i hr
        exact ih hr
      · cases h

theorem readColumn_fails {c : ColSpec} :
    ∀ {raws : List String}, (∃ raw ∈ raws, c.sentinel ≠ some raw ∧ parseTyped c.ty raw = none) →
      ∃ e, readColumn c raws = .error e := by
  intro raws
  induction raws with
  | nil => rintro ⟨raw, hmem, -⟩; cases hmem
  | cons r rest ih =>
    rintro ⟨raw, hmem, hns, hpn⟩
    simp only [readColumn]
    cases hc : readCell c r with
    | error e => exact ⟨e, rfl⟩
    | ok v =>
      rcases List.mem_cons.mp hmem with rfl | hmem2
      · have := readCell_ok_no_sentinel hns hc
        rw [hpn] at this
        cases this
      · obtain ⟨e, he⟩ := ih ⟨raw, hmem2, hns, hpn⟩
        rw [he]
        exact ⟨e, rfl⟩

/-- **C3.** If a partition exposes every declared column but contains
some value that cannot be coerced to its column's declared type after
sentinel substitution, the Typed Reader fails with a type-mismatch
error at the moment the partition is read, and the Materializer run
over any partition list beginning with that partition fails with the
very same error — the failure is not deferred past the read and no
table is produced. -/
theorem type_mismatch_at_read_time :
    ∀ (S : Schema) (p : RawPartition),
      (∀ c ∈ S, ∃ raws, p.cols.lookup c.name = some raws) →
      (∃ c ∈ S, ∃ raws, p.cols.lookup c.name = some raws ∧
        ∃ raw ∈ raws, c.sentinel ≠ some raw ∧ parseTyped c.ty raw = none) →
      ∃ name bad, readPartition S p = .error (.typeMismatch name bad) ∧
        ∀ (nodes : List TNode) (ps : List RawPartition),
          materializeParts ⟨S, nodes⟩ (p :: ps) = .error (.typeMismatch name bad) := by
  intro S
  induction S with
  | nil =>
    intro p _ hbad
    obtain ⟨c, hc, -⟩ := hbad
    cases hc
  | cons c rest ih =>
    intro p hpres hbad
    obtain ⟨raws, hl⟩ := hpres c (by simp)
    have hstep : ∀ name bad, readPartition (c :: rest) p = .error (.typeMismatch name bad) →
        ∀ (nodes : List TNode) (ps : List RawPartition),
          materializeParts ⟨c :: rest, nodes⟩ (p :: ps) = .error (.typeMismatch name bad) := by
      intro name bad hrp nodes ps
      simp only [materializeParts]
      rw [hrp]
    have hlr : lookupRaws p c = .ok raws := lookupRaws_ok.mpr hl
    cases hcol : readColumn c raws with
    | error e =>
      obtain ⟨bad, rfl⟩ := readColumn_error_shape hcol
      have hrp : readPartition (c :: rest) p = .error (.typeMismatch c.name bad) := by
        simp only [readPartition]
        rw [hlr]
        simp only [except_bind_ok]
        rw [hcol, except_bind_error]
      exact ⟨c.name, bad, hrp, hstep _ _ hrp⟩
    | ok vs =>
      obtain ⟨c2, hc2mem, raws2, hl2, hbad2⟩ := hbad
      rcases List.mem_cons.mp hc2mem with rfl | hc2rest
      · rw [hl] at hl2
        cases hl2
        obtain ⟨e, he⟩ := readColumn_fails hbad2
        rw [he] at hcol
        cases hcol
      · have hpres2 : ∀ c3 ∈ rest, ∃ raws3, p.cols.lookup c3.name = some raws3 :=
          fun c3 h3 => hpres c3 (List.mem_cons_of_mem _ h3)
        obtain ⟨name, bad, hrest, -⟩ :=
          ih p hpres2 ⟨c2, hc2rest, raws2, hl2, hbad2⟩
        have hrp : readPartition (c :: rest) p = .error (.typeMismatch name bad) := by
          simp only [readPartition]
          rw [hlr]
          simp only [except_bind_ok]
          rw [hcol]
          simp only [except_bind_ok]
          rw [hrest, except_map_error]
        exact ⟨name, bad, hrp, hstep _ _ hrp⟩

/-- **C3 witness.** A partition whose `VALUE` column holds the
non-numeric, non-sentinel text `"abc"` makes the Typed Reader and the
Materializer fail with the same type-mismatch error at read time. -/
theorem type_mismatch_at_read_time_witness :
    ∃ name bad,
      readPartition exSchema ⟨[("STATION", ["A"]), ("VALUE", ["abc"])]⟩ =
        .error (.typeMismatch name bad) ∧
      ∀ (nodes : List TNode) (ps : List RawPartition),
        materializeParts ⟨exSchema, nodes⟩
          (⟨[("STATION", ["A"]), ("VALUE", ["abc"])]⟩ :: ps) =
          .error (.typeMismatch name bad) :=
  type_mismatch_at_read_time exSchema ⟨[("STATION", ["A"]), ("VALUE", ["abc"])]⟩
    (by
      intro c hc
      rcases List.mem_cons.mp hc with rfl | hc
      · exact ⟨["A"], rfl⟩
      rcases List.mem_cons.mp hc with rfl | hc
      · exact ⟨["abc"], rfl⟩
      cases hc)
    ⟨⟨"VALUE", .int, some "-9999"⟩, by decide, ["abc"], rfl, "abc", by decide,
      by decide, by decide⟩

/-- **C7.** A file-path glob matching zero files makes the Partition
Source fail with `notFound` instead of returning an empty partition
sequence. -/
theorem empty_glob_not_found (pattern : String) (files : List String)
    (h : ∀ f ∈ files, globMatch pattern f = false) :
    partitionSource pattern files = .error .notFound := by
  have hf : files.filter (fun f => globMatch pattern f) = [] :=
    List.filter_eq_nil_iff.mpr (by intro a ha; simp [h a ha])
  simp only [partitionSource, hf]
  rfl

/-- **C7 witness.** The glob `data/*.csv` over a directory holding
only `notes.txt` yields `notFound`. -/
theorem empty_glob_not_found_witness :
    (∀ f ∈ ["notes.txt"], globMatch "data/*.csv" f = false) ∧
    partitionSource "data/*.csv" ["notes.txt"] = .error .notFound :=
  ⟨by decide, empty_glob_not_found "data/*.csv" ["notes.txt"] (by decide)⟩

/-- **C8.** The Partition Source enumerates matches in lexicographic
order by path, and over an unchanged set of input files (any
reordering of the same paths) it produces the identical partition
sequence. -/
theorem partition_enumeration_deterministic (pattern : String)
    (files1 files2 ps1 : List String)
    (hperm : files1.Perm files2)
    (h1 : partitionSource pattern files1 = .ok ps1) :
    ps1.Sorted (fun a b : String => a.data ≤ b.data) ∧
    partitionSource pattern files2 = .ok ps1 := by
  have hpf : (files1.filter (fun f => globMatch pattern f)).Perm
      (files2.filter (fun f => globMatch pattern f)) := hperm.filter _
  have hsortperm :
      (List.insertionSort (fun a b : String => a.data ≤ b.data)
          (files1.filter (fun f => globMatch pattern f))).Perm
        (List.insertionSort (fun a b : String => a.data ≤ b.data)
          (files2.filter (fun f => globMatch pattern f))) :=
    ((List.perm_insertionSort _ _).trans hpf).trans
      (List.perm_insertionSort _ _).symm
  have heq :
      List.insertionSort (fun a b : String => a.data ≤ b.data)
          (files1.filter (fun f => globMatch pattern f)) =
        List.insertionSort (fun a b : String => a.data ≤ b.data)
          (files2.filter (fun f => globMatch pattern f)) :=
    List.eq_of_perm_of_sorted hsortperm
      (List.sorted_insertionSort _ _) (List.sorted_insertionSort _ _)
  simp only [partitionSource] at h1 ⊢
  rw [← heq]
  split at h1
  · cases h1
  · rename_i hne
    rw [if_neg hne]
    cases h1
    exact ⟨List.sorted_insertionSort _ _, rfl⟩

/-- **C8 witness.** Two enumerations of the same two csv files, given
in opposite directory orders, both return the lexicographically
sorted sequence. -/
theorem partition_enumeration_deterministic_witness :
    (["data/b.csv", "data/a.csv"] : List String).Perm ["data/a.csv", "data/b.csv"] ∧
    partitionSource "data/*.csv" ["data/b.csv", "data/a.csv"] =
      .ok ["data/a.csv", "data/b.csv"] ∧
    ((["data/a.csv", "data/b.csv"] : List String).Sorted (fun a b : String => a.data ≤ b.data) ∧
      partitionSource "data/*.csv" ["data/a.csv", "data/b.csv"] =
        .ok ["data/a.csv", "data/b.csv"]) :=
  ⟨by decide, by rfl,
    partition_enumeration_deterministic "data/*.csv"
      ["data/b.csv", "data/a.csv"] ["data/a.csv", "data/b.csv"]
      ["data/a.csv", "data/b.csv"] (by decide) (by rfl)⟩

/-- **C10.** Filtering with a strictly-greater-than-zero mask (the
notebook's `aqc_df[aqc_df["HR00Val"] > 0]`) keeps only rows of the
original table whose filtered-column value is a present, strictly
positive number; in particular no absent-valued row survives. -/
theorem filter_gt_zero_excludes_absent (idx : Nat) (rows : List Row) (r : Row)
    (hmem : r ∈ filterGtZero idx rows) :
    r ∈ rows ∧
    ((∃ n : Int, r.getD idx .absent = .intv n ∧ 0 < n) ∨
      (∃ q : Rat, r.getD idx .absent = .floatv q ∧ 0 < q)) ∧
    r.getD idx .absent ≠ .absent := by
  obtain ⟨hr, hg⟩ := List.mem_filter.mp hmem
  refine ⟨hr, ?_, ?_⟩
  · unfold gtZero at hg
    cases hv : r.getD idx .absent <;> rw [hv] at hg <;> try cases hg
    · exact Or.inl ⟨_, rfl, of_decide_eq_true hg⟩
    · exact Or.inr ⟨_, rfl, of_decide_eq_true hg⟩
  · intro hv
    rw [hv] at hg
    cases hg

/-- **C10 witness.** On the rows `[5]`, `[absent]`, `[0]`, `[-3]` the
filter keeps exactly the row `[5]`, whose value is present and
positive. -/
theorem filter_gt_zero_excludes_absent_witness :
    ([Value.intv 5] : Row) ∈
      filterGtZero 0 [[Value.intv 5], [Value.absent], [Value.intv 0], [Value.intv (-3)]] ∧
    ([Value.intv 5] : Row) ∈
      ([[Value.intv 5], [Value.absent], [Value.intv 0], [Value.intv (-3)]] : List Row) ∧
    ((∃ n : Int, ([Value.intv 5] : Row).getD 0 .absent = .intv n ∧ 0 < n) ∨
      (∃ q : Rat, ([Value.intv 5] : Row).getD 0 .absent = .floatv q ∧ 0 < q)) ∧
    ([Value.intv 5] : Row).getD 0 .absent ≠ .absent :=
  ⟨by decide,
    filter_gt_zero_excludes_absent 0
      [[Value.intv 5], [Value.absent], [Value.intv 0], [Value.intv (-3)]]
      [Value.intv 5] (by decide)⟩

theorem allOutputs_append (l1 l2 : List TNode) :
    allOutputs (l1 ++ l2) = allOutputs l1 ++ allOutputs l2 := by
  simp [allOutputs]

theorem allOutputs_cons (n : TNode) (l : List TNode) :
    allOutputs (n :: l) = n.outputs ++ allOutputs l := by
  simp [allOutputs]

theorem firstDup_eq_none_iff_nodup : ∀ {l : List String}, firstDup l = none ↔ l.Nodup := by
  intro l
  induction l with
  | nil => simp [firstDup]
  | cons x xs ih =>
    simp only [firstDup, List.nodup_cons]
    split
    · rename_i hx
      simp [hx]
    · rename_i hx
      simp [hx, ih]

theorem buildGraph_collision_of_not_nodup {S : Schema} {nodes : List TNode}
    (h : ¬ (allOutputs nodes).Nodup) :
    ∃ d, buildGraph S nodes = .error (.collision d) ∧
      ∀ parts, runPipeline S nodes parts = .error (.collision d) := by
  cases hd : firstDup (allOutputs nodes) with
  | none => exact absurd (firstDup_eq_none_iff_nodup.mp hd) h
  | some d =>
    refine ⟨d, ?_, ?_⟩
    · simp [buildGraph, hd]
    · intro parts
      simp [runPipeline, buildGraph, hd]

theorem collision_part (S : Schema) (l1 l2 l3 : List TNode)
    (n1 n2 : TNode) (name : String)
    (h1 : name ∈ n1.outputs) (h2 : name ∈ n2.outputs) :
    ∃ d, buildGraph S (l1 ++ n1 :: l2 ++ n2 :: l3) = .error (.collision d) ∧
      ∀ parts, runPipeline S (l1 ++ n1 :: l2 ++ n2 :: l3) parts =
        .error (.collision d) := by
  apply buildGraph_collision_of_not_nodup
  intro hnd
  have hcount := (List.nodup_iff_count_le_one.mp hnd) name
  rw [allOutputs_append, allOutputs_cons, allOutputs_append, allOutputs_cons] at hcount
  simp only [List.count_append] at hcount
  have hc1 : 0 < n1.outputs.count name := List.count_pos_iff.mpr h1
  have hc2 : 0 < n2.outputs.count name := List.count_pos_iff.mpr h2
  omega

theorem string_eq_empty_of_length_zero {s : String} (h : s.length = 0) : s = "" := by
  have hd : s.data = [] := List.eq_nil_of_length_eq_zero h
  exact String.toList_inj.mp hd

theorem string_append_ne_self {b s : String} (hs : s ≠ "") : b ++ s ≠ b := by
  intro h
  apply hs
  have hlen := congrArg String.length h
  rw [String.length_append] at hlen
  exact string_eq_empty_of_length_zero (by omega)

theorem string_append_right_inj {b s1 s2 : String} (h : b ++ s1 = b ++ s2) :
    s1 = s2 := by
  have hd := congrArg String.data h
  simp only [String.data_append] at hd
  exact String.toList_inj.mp (List.append_cancel_left hd)

theorem mem_directDeps {nodes : List TNode} {a b : String} :
    b ∈ directDeps nodes a ↔ Edge nodes a b := by
  simp only [directDeps, Edge, List.mem_flatten, List.mem_map, List.mem_filter]
  constructor
  · rintro ⟨l, ⟨n, ⟨hn, hout⟩, rfl⟩, hb⟩
    exact ⟨n, hn, of_decide_eq_true hout, hb⟩
  · rintro ⟨n, hn, hout, hb⟩
    exact ⟨n.inputs, ⟨n, ⟨hn, decide_eq_true hout⟩, rfl⟩, hb⟩

theorem reachable_succ (nodes : List TNode) (fuel : Nat) (a b : String) :
    reachable nodes (fuel + 1) a b =
      (directDeps nodes a).any (fun c => decide (c = b) || reachable nodes fuel c b) := rfl

theorem rename_part (S : Schema) (b s1 s2 : String)
    (hb : b ∈ schemaNames S) (hne : s1 ≠ s2) (h1 : s1 ≠ "") (h2 : s2 ≠ "") :
    ∃ g, buildGraph S [renameNode b s1, renameNode b s2] = .ok g := by
  have hout : allOutputs [renameNode b s1, renameNode b s2] = [b ++ s1, b ++ s2] := by
    simp [allOutputs, renameNode]
  have hne12 : b ++ s1 ≠ b ++ s2 := fun h => hne (string_append_right_inj h)
  have hneb1 : b ≠ b ++ s1 := fun h => string_append_ne_self h1 h.symm
  have hneb2 : b ≠ b ++ s2 := fun h => string_append_ne_self h2 h.symm
  have hfd : firstDup (allOutputs [renameNode b s1, renameNode b s2]) = none := by
    rw [hout]
    simp [firstDup, hne12]
  have hedge : ∀ x y, Edge [renameNode b s1, renameNode b s2] x y →
      (x = b ++ s1 ∨ x = b ++ s2) ∧ y = b := by
    rintro x y ⟨n, hn, hx, hy⟩
    rcases List.mem_cons.mp hn with rfl | hn
    · simp only [renameNode, List.mem_singleton] at hx hy
      exact ⟨Or.inl hx, hy⟩
    rcases List.mem_cons.mp hn with rfl | hn
    · simp only [renameNode, List.mem_singleton] at hx hy
      exact ⟨Or.inr hx, hy⟩
    cases hn
  have hdepsb : directDeps [renameNode b s1, renameNode b s2] b = [] := by
    rw [List.eq_nil_iff_forall_not_mem]
    intro c hc
    rcases hedge b c (mem_directDeps.mp hc) with ⟨hb', -⟩
    rcases hb' with hb' | hb'
    · exact hneb1 hb'
    · exact hneb2 hb'
  have hreachb : ∀ k t, reachable [renameNode b s1, renameNode b s2] (k + 1) b t = false := by
    intro k t
    rw [reachable_succ, hdepsb]
    rfl
  have hreach2 : ∀ x, x = b ++ s1 ∨ x = b ++ s2 →
      reachable [renameNode b s1, renameNode b s2] 2 x x = false := by
    intro x hx
    have h21 : (2 : Nat) = 1 + 1 := rfl
    rw [h21, reachable_succ]
    apply List.any_eq_false.mpr
    intro c hc
    rcases hedge x c (mem_directDeps.mp hc) with ⟨-, hcb⟩
    have hd : decide (b = x) = false := by
      rcases hx with rfl | rfl
      · exact decide_eq_false hneb1
      · exact decide_eq_false hneb2
    rw [hcb, hd, hreachb 0 x]
    simp
  have hcw : cyclicWitness [renameNode b s1, renameNode b s2] = none := by
    unfold cyclicWitness
    rw [hout]
    apply List.find?_eq_none.mpr
    intro x hx
    rcases List.mem_cons.mp hx with rfl | hx
    · simp [hreach2 (b ++ s1) (Or.inl rfl)]
    rcases List.mem_cons.mp hx with rfl | hx
    · simp [hreach2 (b ++ s2) (Or.inr rfl)]
    cases hx
  have hfu : firstUnresolved (schemaNames S) [renameNode b s1, renameNode b s2] = none := by
    simp only [firstUnresolved, renameNode]
    rw [List.find?_eq_none.mpr (by
      intro x hx; rcases List.mem_singleton.mp hx with rfl; simp [hb])]
    rw [List.find?_eq_none.mpr (by
      intro x hx; rcases List.mem_singleton.mp hx with rfl
      simp [List.mem_append, hb])]
  refine ⟨⟨S, [renameNode b s1, renameNode b s2]⟩, ?_⟩
  simp [buildGraph, hfd, hcw, hfu]

/-- **C4.** Two nodes declaring the same output column name make graph
construction fail with a collision error, uniformly in the partition
data (the same error for every partition list, before any data is
touched); rename-style suffix nodes with distinct nonempty suffixes
over the same base column are both accepted. -/
theorem collision_rejected_rename_accepted :
    (∀ (S : Schema) (l1 l2 l3 : List TNode) (n1 n2 : TNode) (name : String),
      name ∈ n1.outputs → name ∈ n2.outputs →
      ∃ d, buildGraph S (l1 ++ n1 :: l2 ++ n2 :: l3) = .error (.collision d) ∧
        ∀ parts, runPipeline S (l1 ++ n1 :: l2 ++ n2 :: l3) parts =
          .error (.collision d)) ∧
    (∀ (S : Schema) (b s1 s2 : String), b ∈ schemaNames S → s1 ≠ s2 →
      s1 ≠ "" → s2 ≠ "" →
      ∃ g, buildGraph S [renameNode b s1, renameNode b s2] = .ok g) :=
  ⟨collision_part, rename_part⟩

/-- **C4 witness.** Two nodes both outputting `"X"` collide for every
partition list; renaming `HourlyWindDirection` with the distinct
suffixes `_lat` and `_long` (the notebook's `Rename` ops) builds
successfully. -/
theorem collision_rejected_rename_accepted_witness :
    (∃ d, buildGraph [⟨"A", .int, none⟩]
        ([] ++ (⟨["X"], ["A"], fun c => c⟩ : TNode) :: [] ++
          (⟨["X"], ["A"], fun c => c⟩ : TNode) :: []) = .error (.collision d) ∧
      ∀ parts, runPipeline [⟨"A", .int, none⟩]
          ([] ++ (⟨["X"], ["A"], fun c => c⟩ : TNode) :: [] ++
            (⟨["X"], ["A"], fun c => c⟩ : TNode) :: []) parts =
          .error (.collision d)) ∧
    ∃ g, buildGraph [⟨"HourlyWindDirection", .float, none⟩]
        [renameNode "HourlyWindDirection" "_lat",
          renameNode "HourlyWindDirection" "_long"] = .ok g :=
  ⟨collision_rejected_rename_accepted.1 [⟨"A", .int, none⟩] [] [] []
      ⟨["X"], ["A"], fun c => c⟩ ⟨["X"], ["A"], fun c => c⟩ "X"
      (by simp) (by simp),
    collision_rejected_rename_accepted.2 [⟨"HourlyWindDirection", .float, none⟩]
      "HourlyWindDirection" "_lat" "_long" (by simp [schemaNames])
      (by decide) (by decide) (by decide)⟩

theorem edge_mem_allOutputs {nodes : List TNode} {a b : String}
    (h : Edge nodes a b) : a ∈ allOutputs nodes := by
  obtain ⟨n, hn, ha, -⟩ := h
  simp only [allOutputs, List.mem_flatten, List.mem_map]
  exact ⟨n.outputs, ⟨n, hn, rfl⟩, ha⟩

theorem two_le_length_of_mem_ne {l : List String} {a b : String}
    (ha : a ∈ l) (hb : b ∈ l) (hne : a ≠ b) : 2 ≤ l.length := by
  match l with
  | [] => cases ha
  | [x] =>
    rw [List.mem_singleton] at ha hb
    exact absurd (ha.trans hb.symm) hne
  | x :: y :: rest => simp

theorem reachable_succ_of_edge {nodes : List TNode} {a b : String}
    (h : Edge nodes a b) (k : Nat) : reachable nodes (k + 1) a b = true := by
  rw [reachable_succ]
  apply List.any_eq_true.mpr
  exact ⟨b, mem_directDeps.mpr h, by simp⟩

theorem reachable_two_of_edges {nodes : List TNode} {a b : String}
    (h1 : Edge nodes a b) (h2 : Edge nodes b a) (k : Nat) :
    reachable nodes (k + 2) a a = true := by
  have h22 : k + 2 = (k + 1) + 1 := rfl
  rw [h22, reachable_succ]
  apply List.any_eq_true.mpr
  refine ⟨b, mem_directDeps.mpr h1, ?_⟩
  rw [reachable_succ_of_edge h2 k]
  simp

/-- **C5.** A pipeline graph with no output-name collision whose
column dependencies contain a self-referential or mutually-referential
cycle fails at build time with a cyclic-dependency error, and the
whole pipeline returns that same error for every partition list — the
failure is synchronous and independent of any partition data. -/
theorem cyclic_dependency_build_error (S : Schema) (nodes : List TNode)
    (hnodup : (allOutputs nodes).Nodup)
    (hcyc : (∃ a, Edge nodes a a) ∨ ∃ a b, Edge nodes a b ∧ Edge nodes b a) :
    ∃ c, buildGraph S nodes = .error (.cyclicDependency c) ∧
      ∀ parts, runPipeline S nodes parts = .error (.cyclicDependency c) := by
  have hfd : firstDup (allOutputs nodes) = none := firstDup_eq_none_iff_nodup.mpr hnodup
  have hsome : ∃ o ∈ allOutputs nodes,
      reachable nodes (allOutputs nodes).length o o = true := by
    rcases hcyc with ⟨a, ha⟩ | ⟨a, b, hab, hba⟩
    · have hmem := edge_mem_allOutputs ha
      have hpos : 0 < (allOutputs nodes).length := List.length_pos.mpr
        (List.ne_nil_of_mem hmem)
      obtain ⟨k, hk⟩ : ∃ k, (allOutputs nodes).length = k + 1 :=
        ⟨(allOutputs nodes).length - 1, by omega⟩
      rw [hk]
      exact ⟨a, hmem, reachable_succ_of_edge ha k⟩
    · by_cases hab' : a = b
      · subst hab'
        have hmem := edge_mem_allOutputs hab
        have hpos : 0 < (allOutputs nodes).length := List.length_pos.mpr
          (List.ne_nil_of_mem hmem)
        obtain ⟨k, hk⟩ : ∃ k, (allOutputs nodes).length = k + 1 :=
          ⟨(allOutputs nodes).length - 1, by omega⟩
        rw [hk]
        exact ⟨a, hmem, reachable_succ_of_edge hab k⟩
      · have hma := edge_mem_allOutputs hab
        have hmb := edge_mem_allOutputs hba
        have h2 : 2 ≤ (allOutputs nodes).length :=
          two_le_length_of_mem_ne hma hmb hab'
        obtain ⟨k, hk⟩ : ∃ k, (allOutputs nodes).length = k + 2 :=
          ⟨(allOutputs nodes).length - 2, by omega⟩
        rw [hk]
        exact ⟨a, hma, reachable_two_of_edges hab hba k⟩
  have hcw : ∃ c, cyclicWitness nodes = some c := by
    rw [← Option.isSome_iff_exists]
    unfold cyclicWitness
    rw [List.find?_isSome]
    obtain ⟨o, ho, hr⟩ := hsome
    exact ⟨o, ho, hr⟩
  obtain ⟨c, hc⟩ := hcw
  refine ⟨c, ?_, ?_⟩
  · simp [buildGraph, hfd, hc]
  · intro parts
    simp [runPipeline, buildGraph, hfd, hc]

/-- **C5 witness.** A node whose output `X` is also its own input (a
self-referential column dependency) makes the build, and the pipeline
over any partitions, fail with a cyclic-dependency error. -/
theorem cyclic_dependency_build_error_witness :
    (allOutputs [(⟨["X"], ["X"], fun c => c⟩ : TNode)]).Nodup ∧
    Edge [(⟨["X"], ["X"], fun c => c⟩ : TNode)] "X" "X" ∧
    ∃ c, buildGraph [] [(⟨["X"], ["X"], fun c => c⟩ : TNode)] =
        .error (.cyclicDependency c) ∧
      ∀ parts, runPipeline [] [(⟨["X"], ["X"], fun c => c⟩ : TNode)] parts =
        .error (.cyclicDependency c) :=
  ⟨by simp [allOutputs],
    ⟨⟨["X"], ["X"], fun c => c⟩, by simp, by simp, by simp⟩,
    cyclic_dependency_build_error [] [⟨["X"], ["X"], fun c => c⟩]
      (by simp [allOutputs])
      (Or.inl ⟨"X", ⟨["X"], ["X"], fun c => c⟩, by simp, by simp, by simp⟩)⟩

theorem zipWith_map_same {α β γ δ : Type} (h : β → γ → δ) (f : α → β) (g : α → γ) :
    ∀ l : List α, List.zipWith h (l.map f) (l.map g) = l.map (fun x => h (f x) (g x))
  | [] => rfl
  | x :: xs => by
    simp only [List.map_cons, List.zipWith_cons_cons, zipWith_map_same h f g xs]

theorem take_add_split {α : Type} :
    ∀ (m n : Nat) (l : List α), l.take (m + n) = l.take m ++ (l.drop m).take n := by
  intro m
  induction m with
  | zero => intro n l; simp
  | succ k ih =>
    intro n l
    cases l with
    | nil => simp
    | cons x xs =>
      have hc : k + 1 + n = (k + n) + 1 := by omega
      rw [hc]
      simp only [List.take_succ_cons, List.drop_succ_cons, ih n xs]
      rfl

theorem joinTables_cons_of_ne_nil {t : Table} {ts : List Table} (h : ts ≠ []) :
    joinTables (t :: ts) = appendTables t (joinTables ts) := by
  cases ts with
  | nil => cases h rfl
  | cons t2 ts2 => rfl

theorem splitSizes_sum (n total : Nat) (hn : 0 < n) : (splitSizes n total).sum = total := by
  unfold splitSizes
  rw [List.sum_append, List.sum_const_nat, List.sum_const_nat]
  have hdm := Nat.div_add_mod total n
  have hrlt : total % n < n := Nat.mod_lt _ hn
  have hle : (total % n) * (total / n) ≤ n * (total / n) :=
    Nat.mul_le_mul_right _ (Nat.le_of_lt hrlt)
  rw [Nat.mul_succ, Nat.sub_mul]
  generalize hA : total % n * (total / n) = A at *
  generalize hB : n * (total / n) = B at *
  generalize hr : total % n = r at *
  omega

theorem splitSizes_ne_nil {n total : Nat} (hn : 0 < n) : splitSizes n total ≠ [] := by
  unfold splitSizes
  intro h
  have hlen := congrArg List.length h
  simp only [List.length_append, List.length_replicate, List.length_nil] at hlen
  have hrlt : total % n < n := Nat.mod_lt _ hn
  generalize hr : total % n = r at *
  omega

theorem joinTables_fileChunks (t : Table) :
    ∀ (sizes : List Nat) (s : Nat), sizes ≠ [] →
      joinTables ((fileStarts sizes s).map (fun pr => fileChunk t pr.1 pr.2)) =
        t.map (fun c => (c.1, (c.2.drop s).take sizes.sum)) := by
  intro sizes
  induction sizes with
  | nil => intro s h; cases h rfl
  | cons k ks ih =>
    intro s _
    cases ks with
    | nil =>
      simp [fileStarts, joinTables, fileChunk]
    | cons k2 ks2 =>
      have hnn : (fileStarts (k2 :: ks2) (s + k)).map (fun pr => fileChunk t pr.1 pr.2) ≠ [] := by
        simp [fileStarts]
      rw [show fileStarts (k :: k2 :: ks2) s = (s, k) :: fileStarts (k2 :: ks2) (s + k) from rfl]
      rw [List.map_cons, joinTables_cons_of_ne_nil hnn, ih (s + k) (by simp)]
      unfold fileChunk appendTables
      rw [zipWith_map_same]
      apply List.map_congr_left
      intro c _
      dsimp only
      refine congrArg (Prod.mk c.1) ?_
      rw [← List.drop_drop, ← take_add_split]
      simp [List.sum_cons]

/-- **C6.** For every pipeline graph, partition list and positive
output-file count `N`: materializing to `N` output files succeeds
exactly on the tables obtained by contiguous row-range splitting of
the single-output materialization, and reading the `N` files back and
concatenating them in file order reproduces that single-output table
exactly. -/
theorem output_file_count_roundtrip (g : Graph) (parts : List RawPartition)
    (N : Nat) (T : Table) (hN : 0 < N)
    (hmat : materializeSingle g parts = .ok T) (hrect : Rectangular T) :
    materializeToFiles g parts N = .ok (writeFiles T N) ∧
    joinTables (writeFiles T N) = T := by
  constructor
  · unfold materializeToFiles
    rw [hmat, except_map_ok]
  · unfold writeFiles
    rw [joinTables_fileChunks T (splitSizes N (rowCount T)) 0 (splitSizes_ne_nil hN),
      splitSizes_sum N (rowCount T) hN]
    have hpt : ∀ c ∈ T, (c.1, (c.2.drop 0).take (rowCount T)) = c := by
      intro c hc
      rw [List.drop_zero, ← hrect c hc, List.take_length]
    rw [List.map_congr_left hpt]
    simp

/-- **C6 witness.** Materializing the §8 scenario through an empty
node graph to 2 output files splits its 3 rows into contiguous ranges
of 2 and 1, and concatenating the two files in order reproduces the
single-output table. -/
theorem output_file_count_roundtrip_witness :
    (0 : Nat) < 2 ∧
    materializeSingle ⟨exSchema, []⟩ [exPartition] = .ok exTable ∧
    Rectangular exTable ∧
    materializeToFiles ⟨exSchema, []⟩ [exPartition] 2 = .ok (writeFiles exTable 2) ∧
    joinTables (writeFiles exTable 2) = exTable :=
  ⟨by decide, by rfl,
    by unfold Rectangular; decide,
    output_file_count_roundtrip ⟨exSchema, []⟩ [exPartition] 2 exTable
      (by decide) (by rfl) (by unfold Rectangular; decide)⟩

/-- **C9.** The cross-partition aggregate (the global minimum of a
column, as used to parameterize the date picker) is a barrier over
the fully transformed partitions: whatever completion order the
per-partition tables arrive in — any permutation of the full
transformed-partition list — the aggregate the downstream step
observes equals the aggregate over the concatenation of all
partitions in source order, never that of a proper subset. -/
theorem barrier_aggregate_over_all_partitions (g : Graph) (parts : List RawPartition)
    (ts order : List Table) (col : String)
    (hmat : materializeParts g parts = .ok ts)
    (hperm : order.Perm ts) :
    dateMin (partsColStrings order col) = dateMin (partsColStrings ts col) := by
  unfold dateMin partsColStrings
  exact ((hperm.map (fun t => colStrings t col)).flatten).foldr_eq none

/-- **C9 witness.** Two single-row `DATE` partitions, transformed and
collected in reversed completion order, yield the same global
minimum `2021-01-01` as the source-order concatenation. -/
theorem barrier_aggregate_over_all_partitions_witness :
    materializeParts ⟨[⟨"DATE", .text, none⟩], []⟩
        [⟨[("DATE", ["2021-01-02"])]⟩, ⟨[("DATE", ["2021-01-01"])]⟩] =
      .ok [[("DATE", [.textv "2021-01-02"])], [("DATE", [.textv "2021-01-01"])]] ∧
    ([[("DATE", [Value.textv "2021-01-01"])], [("DATE", [Value.textv "2021-01-02"])]] :
        List Table).Perm
      [[("DATE", [.textv "2021-01-02"])], [("DATE", [.textv "2021-01-01"])]] ∧
    dateMin (partsColStrings
        [[("DATE", [.textv "2021-01-01"])], [("DATE", [.textv "2021-01-02"])]] "DATE") =
      dateMin (partsColStrings
        [[("DATE", [.textv "2021-01-02"])], [("DATE", [.textv "2021-01-01"])]] "DATE") :=
  ⟨by rfl, by decide,
    barrier_aggregate_over_all_partitions ⟨[⟨"DATE", .text, none⟩], []⟩
      [⟨[("DATE", ["2021-01-02"])]⟩, ⟨[("DATE", ["2021-01-01"])]⟩]
      [[("DATE", [.textv "2021-01-02"])], [("DATE", [.textv "2021-01-01"])]]
      [[("DATE", [.textv "2021-01-01"])], [("DATE", [.textv "2021-01-02"])]]
      "DATE" (by rfl) (by decide)⟩

end Pipeline
